import Mathlib

/-!
Verification of the rusty-pandas columnar table engine.

Shallow embedding conventions:
* A 64-bit float value is modelled as `WithBot ℚ`, where `⊥` stands for the
  IEEE754 NaN sentinel ("missing value") and a coerced rational stands for any
  finite float.  Addition on `WithBot ℚ` is absorbing at `⊥`, which matches NaN
  propagation through `+`; sums of NaN-free data live in `ℚ`.  Floating-point
  rounding is idealized away: the spec itself only fixes results "up to
  floating-point summation order".
* `i32` values (used by the scan in `funky_functions.rs`) are modelled as `ℤ`;
  the algorithm only adds, and `i32` wrapping addition is a homomorphic image
  of `ℤ` addition, so all stated identities transport to the wrapped values.
* Code that can panic (`unwrap`, out-of-range `Vec` indexing, `Vec::insert`,
  `Vec::drain`) is modelled in `Option`, with `none` for the panic.
* The sequential/parallel dispatch on the 8192-element threshold is kept
  where the two strategies differ textually (`min`/`max`).  Where the parallel
  branch computes the same multiset combination as the sequential one
  (`sum`, `dropna`, `isna`, `sort`, maps), a single expression is used: the
  combining operations are associative and commutative on the model type, so
  every rayon split schedule yields this value.
* rayon's `max_by_key` returns the item with the highest index among ties,
  exactly like `Iterator::max_by_key`; it is modelled by a left fold that
  replaces the current best on `≤`.
-/

/-- The model of an `f64` value: `⊥` is NaN, a coerced `ℚ` is a finite float. -/
abbrev F : Type := WithBot ℚ

/-- Source `Series` from `src/series/mod.rs`: an ordered vector of float values. -/
structure Series where
  data : List F
deriving DecidableEq

namespace Series

/-- Source `Series::new` -/
def new (data : List F) : Series := ⟨data⟩

/-- Source `Series::size` -/
def size (s : Series) : Nat := s.data.length

/-- Source `Series::is_empty` -/
def is_empty (s : Series) : Bool := s.size == 0

/-- Source `Zero::zero` for `Series`: the empty series, used as the "empty result". -/
def zero : Series := ⟨[]⟩

/-- Source `Series::iloc`.  The source panics on an out-of-range index; the model
returns `⊥` there, and is only ever applied in bounds by the callers below. -/
def iloc (s : Series) (idx : Nat) : F := s.data.getD idx ⊥

/-- Source `Series::dropna`: remove the NaN entries, keeping order.  Both dispatch
branches filter the same list. -/
def dropna (s : Series) : Series := ⟨s.data.filter (fun x => !(x == ⊥))⟩

/-- Source `Series::isna`: a 0.0/1.0 mask marking the NaN entries
(`x.is_nan() as i32 as f64`). -/
def isna (s : Series) : Series :=
  ⟨s.data.map (fun x => if x == ⊥ then ((1 : ℚ) : F) else ((0 : ℚ) : F))⟩

/-- Source `Series::sum`: drop NaNs, then sum.  The parallel branch adds the same
multiset in a different order, which is the same value in a commutative
monoid. -/
def sum (s : Series) : Series := ⟨[(s.dropna).data.sum]⟩

/-- Source `Series::sort`: drop NaNs and sort ascending (`par_sort_by` with
`partial_cmp`).  Any comparison sort of a list without NaNs produces the
unique `≤`-sorted permutation, here given by `insertionSort`. -/
def sort (s : Series) : Series := ⟨List.insertionSort (· ≤ ·) (s.dropna).data⟩

end Series

/-! ## The work-efficient scan (`prefix_sum` in `src/funky_functions.rs`, and the
local `prefix_sum` inside `Series::cumsum`).

Both Rust functions are the same algorithm at different element types (`i32`
resp. `f64`) and different sequential cutoffs (8192 resp. 512), so the model is
one function over an additive commutative monoid, parameterized by the cutoff.
-/

section Scan

variable {α : Type} [AddCommMonoid α]

/-- The pairwise-summing pass: `(0..half).map(|i| xs[i*2] + xs[i*2+1])` with
`half = xs.len() / 2` (a trailing unpaired element is dropped). -/
def pairSums : List α → List α
  | a :: b :: rest => (a + b) :: pairSums rest
  | _ => []

/-- The expansion pass:
`(0..half).flat_map(|i| vec![c_prefix[i], c_prefix[i] + xs[2*i]])`, walking the
recursive prefixes and the input in lockstep. -/
def expand : List α → List α → List α
  | p :: ps, a :: _ :: rest => p :: (p + a) :: expand ps rest
  | _, _ => []

/-- Specification-side exclusive prefix scan: element `i` is
`acc` plus the sum of the first `i` inputs. -/
def exScan : List α → α → List α
  | [], _ => []
  | x :: rest, acc => acc :: exScan rest (acc + x)

theorem pairSums_length : ∀ (l : List α), (pairSums l).length = l.length / 2
  | [] => by simp [pairSums]
  | [_] => by simp [pairSums]
  | a :: b :: rest => by
    simp [pairSums, pairSums_length rest]
    omega

/-- Source `prefix_sum` from `src/funky_functions.rs` (and the `f64` clone inside
`Series::cumsum`), with the sequential cutoff as a parameter.  The sequential
branch builds `pfs = [0, sum xs[0..1], …, sum xs[0..n]]` and returns
`(pfs without its last element, last element of pfs)`; the recursive branch
pair-sums, recurses, expands, and patches up an odd-length tail. -/
def prefixSumAux (cutoff : Nat) (xs : List α) : List α × α :=
  if xs.isEmpty then ([], 0)
  else if xs.length < cutoff then
    let pfs := 0 :: (List.range xs.length).map (fun i => (xs.take (i + 1)).sum)
    (pfs.dropLast, pfs.getLastD 0)
  else
    let r := prefixSumAux cutoff (pairSums xs)
    let pfs := expand r.1 xs
    if xs.length % 2 == 1 then (pfs ++ [r.2], r.2 + xs.getLastD 0) else (pfs, r.2)
termination_by xs.length
decreasing_by
  rename_i hne _
  rw [pairSums_length]
  have hx : xs ≠ [] := by simpa [List.isEmpty_iff] using hne
  exact Nat.div_lt_self (List.length_pos.mpr hx) (by norm_num)

theorem exScan_length (l : List α) (acc : α) : (exScan l acc).length = l.length := by
  induction l generalizing acc with
  | nil => simp [exScan]
  | cons x rest ih => simp [exScan, ih]

theorem exScan_eq_map (l : List α) (acc : α) :
    exScan l acc = (List.range l.length).map (fun i => acc + (l.take i).sum) := by
  induction l generalizing acc with
  | nil => simp [exScan]
  | cons x rest ih =>
    simp only [exScan, ih, List.length_cons, List.range_succ_eq_map, List.map_cons,
      List.map_map, Function.comp_def, List.take_succ_cons, List.sum_cons, List.take_zero,
      List.sum_nil, add_zero]
    simp [add_assoc]

theorem concat_exScan (l : List α) (acc : α) :
    exScan l acc ++ [acc + l.sum] =
      acc :: (List.range l.length).map (fun i => acc + (l.take (i + 1)).sum) := by
  induction l generalizing acc with
  | nil => simp [exScan]
  | cons x rest ih =>
    simp only [exScan, List.cons_append, List.length_cons, List.range_succ_eq_map,
      List.map_cons, List.map_map, Function.comp_def, List.take_succ_cons, List.sum_cons,
      List.take_zero, List.sum_nil, add_zero]
    rw [← add_assoc, ih (acc + x)]
    simp [add_assoc]

theorem expand_exScan : ∀ (xs : List α) (acc : α),
    expand (exScan (pairSums xs) acc) xs = (exScan xs acc).take (2 * (xs.length / 2))
  | [], _ => by simp [pairSums, exScan, expand]
  | [a], acc => by simp [pairSums, exScan, expand]
  | a :: b :: rest, acc => by
    have h2 : (a :: b :: rest).length / 2 = rest.length / 2 + 1 := by simp; omega
    rw [h2]
    have ih := expand_exScan rest (acc + a + b)
    simp only [pairSums, exScan, expand, List.take_succ_cons, Nat.mul_add, Nat.mul_one]
    rw [show acc + (a + b) = acc + a + b by rw [add_assoc], ih]

theorem pairSums_sum : ∀ (xs : List α),
    (pairSums xs).sum = (xs.take (2 * (xs.length / 2))).sum
  | [] => by simp [pairSums]
  | [a] => by simp [pairSums]
  | a :: b :: rest => by
    have h2 : (a :: b :: rest).length / 2 = rest.length / 2 + 1 := by simp; omega
    rw [h2]
    simp only [pairSums, List.sum_cons, pairSums_sum rest, Nat.mul_add, Nat.mul_one,
      List.take_succ_cons]
    rw [add_assoc]

omit [AddCommMonoid α] in
theorem getLastD_irrel (l : List α) (h : l ≠ []) (d e : α) : l.getLastD d = l.getLastD e := by
  cases l with
  | nil => exact absurd rfl h
  | cons a t => simp only [List.getLastD_cons]

theorem sum_take_pred_getLastD : ∀ (xs : List α) (_ : xs ≠ []),
    (xs.take (xs.length - 1)).sum + xs.getLastD 0 = xs.sum
  | [], h => absurd rfl h
  | [x], _ => by simp
  | x :: y :: rest, _ => by
    have ih := sum_take_pred_getLastD (y :: rest) (by simp)
    have hlen : (x :: y :: rest).length - 1 = (y :: rest).length := by simp
    rw [hlen]
    have htake : (x :: y :: rest).take (y :: rest).length
        = x :: (y :: rest).take ((y :: rest).length - 1) := by
      simp [List.take_succ_cons]
    rw [htake, List.getLastD_cons, getLastD_irrel (y :: rest) (by simp) x 0]
    simp only [List.sum_cons, add_assoc, ih]

theorem prefixSumAux_eq (cutoff : Nat) (xs : List α) :
    prefixSumAux cutoff xs = (exScan xs 0, xs.sum) := by
  have key : ∀ (n : Nat) (xs : List α), xs.length ≤ n →
      prefixSumAux cutoff xs = (exScan xs 0, xs.sum) := by
    intro n
    induction n with
    | zero =>
      intro xs h
      have : xs = [] := List.eq_nil_of_length_eq_zero (Nat.le_zero.mp h)
      subst this
      rw [prefixSumAux]
      simp [exScan]
    | succ n ih =>
      intro xs h
      rw [prefixSumAux]
      by_cases he : xs.isEmpty
      · have : xs = [] := by simpa [List.isEmpty_iff] using he
        subst this
        simp [exScan]
      · have hxne : xs ≠ [] := by simpa [List.isEmpty_iff] using he
        have hxpos : 0 < xs.length := List.length_pos.mpr hxne
        simp only [he, Bool.false_eq_true, if_false]
        by_cases hlt : xs.length < cutoff
        · simp only [hlt, if_true]
          have hb := concat_exScan xs (0 : α)
          simp only [zero_add] at hb
          rw [← hb, List.dropLast_concat, List.getLastD_concat]
        · simp only [hlt, if_false]
          have hrec : prefixSumAux cutoff (pairSums xs) = (exScan (pairSums xs) 0, (pairSums xs).sum) := by
            apply ih
            rw [pairSums_length]
            omega
          rw [hrec]
          simp only [expand_exScan xs 0, pairSums_sum xs]
          by_cases hodd : xs.length % 2 = 1
          · simp only [hodd, beq_self_eq_true, if_true]
            have h1 : 2 * (xs.length / 2) = xs.length - 1 := by omega
            rw [h1]
            have hmap : exScan xs (0 : α) =
                ((List.range (xs.length - 1)).map (fun i => (0 : α) + (xs.take i).sum))
                  ++ [(0 : α) + (xs.take (xs.length - 1)).sum] := by
              rw [exScan_eq_map]
              conv_lhs => rw [show xs.length = (xs.length - 1) + 1 by omega]
              rw [List.range_succ, List.map_append]
              rfl
            simp only [Prod.mk.injEq]
            refine ⟨?_, ?_⟩
            · rw [hmap, List.take_left' (by simp)]
              simp
            · exact sum_take_pred_getLastD xs hxne
          · have hbeq : (xs.length % 2 == 1) = false := by
              simp only [beq_eq_false_iff_ne, ne_eq]
              exact hodd
            simp only [hbeq, Bool.false_eq_true, if_false]
            have h1 : 2 * (xs.length / 2) = xs.length := by omega
            rw [h1]
            simp only [Prod.mk.injEq]
            refine ⟨?_, ?_⟩
            · rw [List.take_of_length_le (le_of_eq (exScan_length xs 0))]
            · rw [List.take_length]
  exact key xs.length xs le_rfl

end Scan

/-- Source `prefix_sum` from `src/funky_functions.rs`: the `i32` instance of the scan,
with its sequential cutoff of 8192. -/
def prefix_sum (xs : List ℤ) : List ℤ × ℤ := prefixSumAux 8192 xs

theorem prefix_sum_eq (xs : List ℤ) : prefix_sum xs = (exScan xs 0, xs.sum) :=
  prefixSumAux_eq 8192 xs

/-- C2.  `prefix_sum(xs)` returns `(p, t)` where `p` lists the exclusive prefix
sums — `p` has the length of `xs`, `p[i] = xs[0] + ⋯ + xs[i-1]`, in particular
`p[0] = 0` — and `t` is the total sum, for inputs of every length (on both
sides of the 8192 recursion cutoff, odd lengths included, since the statement
is universally quantified over `xs`). -/
theorem prefix_sum_correct (xs : List ℤ) :
    (prefix_sum xs).1.length = xs.length ∧
    (prefix_sum xs).1 = (List.range xs.length).map (fun i => (xs.take i).sum) ∧
    (prefix_sum xs).1.headD 0 = 0 ∧
    (prefix_sum xs).2 = xs.sum := by
  rw [prefix_sum_eq]
  have hmap : exScan xs (0 : ℤ) = (List.range xs.length).map (fun i => (xs.take i).sum) := by
    rw [exScan_eq_map]
    simp [zero_add]
  refine ⟨?_, hmap, ?_, rfl⟩
  · rw [exScan_length]
  · rw [hmap]
    cases xs with
    | nil => simp
    | cons x t => simp [List.range_succ_eq_map]

/-! ## `par_filter` from `src/funky_functions.rs`.

The write phase fills an uninitialized buffer of `n_filtered` slots: each
source index `i` with mask bit 1 writes `xs[i].0 + 1` at destination
`indices[i]`.  The concurrent unsynchronized writes are modelled as a left fold
of `List.set` updates; the safety claim proved below (the destinations at
satisfying positions are exactly `0, 1, …, count-1`) is what makes the fold
order irrelevant in the source. -/

/-- The 0/1 mask: `xs.par_iter().map(|&x| p(x) as i32)`. -/
def mask (xs : List (Nat × Char)) (p : Nat × Char → Bool) : List ℤ :=
  xs.map (fun x => if p x then 1 else 0)

/-- Source `par_filter`: mask, scan, allocate `n_filtered` slots, then write
`elem.0 + 1` at `indices[i]` for every satisfying `i`. -/
def par_filter (xs : List (Nat × Char)) (p : Nat × Char → Bool) : List Nat :=
  let binary_xs := mask xs p
  let scanned := prefix_sum binary_xs
  let output := List.replicate scanned.2.toNat 0
  (List.range xs.length).foldl
    (fun out i =>
      if binary_xs.getD i 0 == 1 then
        out.set (scanned.1.getD i 0).toNat ((xs.getD i (0, 'x')).1 + 1)
      else out)
    output

/-- The scan-derived destination indices read at the satisfying source
positions, in source order. -/
def destIdx (xs : List (Nat × Char)) (p : Nat × Char → Bool) : List ℤ :=
  ((List.range xs.length).filter (fun i => (mask xs p).getD i 0 == 1)).map
    (fun i => (prefix_sum (mask xs p)).1.getD i 0)

theorem mask_sum (xs : List (Nat × Char)) (p : Nat × Char → Bool) :
    (mask xs p).sum = ((xs.filter p).length : ℤ) := by
  induction xs with
  | nil => simp [mask]
  | cons x t ih =>
    have ih' : (t.map (fun x => if p x = true then (1 : ℤ) else 0)).sum
        = ((t.filter p).length : ℤ) := by simpa [mask] using ih
    simp only [mask, List.map_cons, List.sum_cons, List.filter_cons]
    by_cases hp : p x
    · simp only [hp, if_true, List.length_cons, ih']
      push_cast
      ring
    · simp only [hp, Bool.false_eq_true, if_false, zero_add, ih']

theorem mask_mem (xs : List (Nat × Char)) (p : Nat × Char → Bool) :
    ∀ x ∈ mask xs p, x = 0 ∨ x = 1 := by
  intro x hx
  simp only [mask, List.mem_map] at hx
  obtain ⟨a, -, ha⟩ := hx
  by_cases hp : p a <;> simp [hp] at ha <;> omega

theorem zero_one_sum_nonneg (m : List ℤ) (hm : ∀ x ∈ m, x = 0 ∨ x = 1) : 0 ≤ m.sum := by
  apply List.sum_nonneg
  intro x hx
  rcases hm x hx with h | h <;> omega

theorem getD_map_range (f : Nat → ℤ) (n i : Nat) (h : i < n) :
    ((List.range n).map f).getD i 0 = f i := by
  rw [List.getD_eq_getElem _ _ (by simpa using h)]
  simp

/-- Prefix sums of a 0/1 mask (each offset by `acc`), read off at the positions
where the mask is 1, are exactly `acc, acc+1, …, acc+sum-1`, in order. -/
theorem mask_positions_acc :
    ∀ (m : List ℤ), (∀ x ∈ m, x = 0 ∨ x = 1) → ∀ (acc : ℤ),
    ((List.range m.length).filter (fun i => m.getD i 0 == 1)).map
        (fun i => acc + (m.take i).sum)
      = (List.range m.sum.toNat).map (fun j : Nat => acc + (j : ℤ)) := by
  intro m
  induction m with
  | nil => intro _ acc; simp
  | cons x t ih =>
    intro hm acc
    have hm' : ∀ y ∈ t, y = 0 ∨ y = 1 := fun y hy => hm y (List.mem_cons_of_mem x hy)
    have hts : 0 ≤ t.sum := zero_one_sum_nonneg t hm'
    rw [List.length_cons, List.range_succ_eq_map, List.filter_cons, List.filter_map]
    have hcomp :
        (((List.range t.length).filter ((fun i => (x :: t).getD i 0 == 1) ∘ Nat.succ)).map
            Nat.succ).map (fun i => acc + ((x :: t).take i).sum)
          = ((List.range t.length).filter (fun i => t.getD i 0 == 1)).map
              (fun i => (acc + x) + (t.take i).sum) := by
      rw [List.map_map]
      simp only [Function.comp_def, List.getD_cons_succ, List.take_succ_cons, List.sum_cons,
        add_assoc]
    rcases hm x (List.mem_cons_self x t) with hx | hx <;> subst hx
    · have hc : (((0 : ℤ) :: t).getD 0 0 == 1) = false := by simp
      rw [hc]
      simp only [Bool.false_eq_true, if_false]
      rw [hcomp, ih hm' (acc + 0)]
      simp
    · have hc : (((1 : ℤ) :: t).getD 0 0 == 1) = true := by simp
      rw [hc]
      simp only [if_true, List.map_cons, List.take_zero, List.sum_nil, add_zero]
      rw [hcomp, ih hm' (acc + 1)]
      have hsum : ((1 : ℤ) :: t).sum.toNat = t.sum.toNat + 1 := by
        rw [List.sum_cons]
        omega
      rw [hsum, List.range_succ_eq_map, List.map_cons, List.map_map]
      simp only [Nat.cast_zero, add_zero, List.cons.injEq, true_and]
      apply List.map_congr_left
      intro j _
      simp only [Function.comp_def]
      push_cast
      ring

/-- Specialization of `mask_positions_acc` at `acc = 0`. -/
theorem mask_positions (m : List ℤ) (hm : ∀ x ∈ m, x = 0 ∨ x = 1) :
    ((List.range m.length).filter (fun i => m.getD i 0 == 1)).map
        (fun i => (m.take i).sum)
      = (List.range m.sum.toNat).map (fun j : Nat => (j : ℤ)) := by
  have h := mask_positions_acc m hm 0
  simpa using h

theorem prefix_mask_getD (m : List ℤ) (i : Nat) (h : i < m.length) :
    (prefix_sum m).1.getD i 0 = (m.take i).sum := by
  rw [prefix_sum_eq]
  dsimp only
  rw [exScan_eq_map, getD_map_range _ _ _ h]
  simp

theorem destIdx_eq_positions (xs : List (Nat × Char)) (p : Nat × Char → Bool) :
    destIdx xs p
      = (List.range (xs.filter p).length).map (fun j : Nat => (j : ℤ)) := by
  have hlen : (mask xs p).length = xs.length := by simp [mask]
  have h1 : destIdx xs p
      = ((List.range (mask xs p).length).filter
          (fun i => (mask xs p).getD i 0 == 1)).map
          (fun i => ((mask xs p).take i).sum) := by
    rw [destIdx, hlen]
    apply List.map_congr_left
    intro i hi
    have hi' : i < xs.length := by
      have := List.mem_of_mem_filter hi
      simpa using this
    exact prefix_mask_getD (mask xs p) i (by rwa [hlen])
  rw [h1, mask_positions (mask xs p) (mask_mem xs p), mask_sum]
  congr 1

theorem length_foldl_set (l : List Nat) (init : List Nat) (c : Nat → Bool)
    (d v : Nat → Nat) :
    (l.foldl (fun out i => if c i then out.set (d i) (v i) else out) init).length
      = init.length := by
  induction l generalizing init with
  | nil => rfl
  | cons a t ih =>
    simp only [List.foldl_cons]
    rw [ih]
    by_cases h : c a <;> simp [h]

theorem par_filter_length (xs : List (Nat × Char)) (p : Nat × Char → Bool) :
    (par_filter xs p).length = (xs.filter p).length := by
  simp only [par_filter]
  rw [length_foldl_set, List.length_replicate, prefix_sum_eq]
  dsimp only
  rw [mask_sum]
  omega

/-- C3.  `par_filter(xs, p)`'s output buffer has exactly as many slots as there
are elements of `xs` satisfying `p`, and the scan-derived destination indices
at the satisfying source positions are, in source order, exactly
`0, 1, …, count-1`: pairwise distinct and covering `[0, count)` exactly, so
during the write phase every output slot is written exactly once and no index
is written twice. -/
theorem par_filter_safety (xs : List (Nat × Char)) (p : Nat × Char → Bool) :
    (par_filter xs p).length = (xs.filter p).length ∧
    destIdx xs p = (List.range (xs.filter p).length).map (fun j : Nat => (j : ℤ)) ∧
    (destIdx xs p).Nodup ∧
    (∀ j : ℤ, j ∈ destIdx xs p ↔ 0 ≤ j ∧ j < ((xs.filter p).length : ℤ)) := by
  have hd := destIdx_eq_positions xs p
  refine ⟨par_filter_length xs p, hd, ?_, ?_⟩
  · rw [hd]
    exact (List.nodup_range _).map Nat.cast_injective
  · intro j
    rw [hd]
    simp only [List.mem_map, List.mem_range]
    constructor
    · rintro ⟨i, hi, rfl⟩
      omega
    · rintro ⟨h0, hlt⟩
      exact ⟨j.toNat, by omega, by omega⟩

/-! ## Series reductions from `src/series/mod.rs`. -/

/-- NaN-propagating scalar division (an `f64 / f64` with a non-NaN divisor). -/
def divW (x : F) (d : ℚ) : F := WithBot.map (fun q => q / d) x

/-- NaN-propagating `* 0.5`. -/
def halveW (x : F) : F := WithBot.map (fun q => q * (1 / 2)) x

namespace Series

/-- Source `Series::mean`: `sum().iloc(0) / size()` behind an emptiness check on the
series itself (not on the NaN-dropped data). -/
def mean (s : Series) : Series :=
  if s.data.length = 0 then zero
  else ⟨[divW (s.sum.iloc 0) ((s.data.length : ℚ))]⟩

/-- Source `Series::median`.  Note the `valid.size() == 1` branch returns
`Series::new(self.data.clone())` — the whole original data, not the single
valid value. -/
def median (s : Series) : Series :=
  if (s.dropna).data.length = 0 then zero
  else if (s.dropna).data.length = 1 then ⟨s.data⟩
  else
    if (s.dropna).data.length % 2 = 1 then
      ⟨[((s.dropna).sort).iloc ((s.dropna).data.length / 2)]⟩
    else
      ⟨[halveW (((s.dropna).sort).iloc ((s.dropna).data.length / 2 - 1)
          + ((s.dropna).sort).iloc ((s.dropna).data.length / 2))]⟩

/-- Source `Series::min`.  The opening `if self.is_empty() { Series::zero(); }`
discards the constructed sentinel (no `return`), so execution always falls
through to the dispatch.  The sequential branch `reduce(...).unwrap()` panics
(`none`) when the NaN-dropped data is empty; the parallel branch folds with the
rayon identity `&0.0`, which rayon may interleave anywhere — the fold operator
is associative, commutative and idempotent on the identity, so every schedule
equals this canonical left fold. -/
def min (s : Series) : Option Series :=
  if s.data.length < 8192 then
    match (s.dropna).data with
    | [] => none
    | x :: rest => some ⟨[rest.foldl (fun a b => if a < b then a else b) x]⟩
  else
    some ⟨[(s.dropna).data.foldl (fun a b => if a < b then a else b) ((0 : ℚ) : F)]⟩

/-- Source `Series::max`, mirror image of `Series.min` with `>`. -/
def max (s : Series) : Option Series :=
  if s.data.length < 8192 then
    match (s.dropna).data with
    | [] => none
    | x :: rest => some ⟨[rest.foldl (fun a b => if a > b then a else b) x]⟩
  else
    some ⟨[(s.dropna).data.foldl (fun a b => if a > b then a else b) ((0 : ℚ) : F)]⟩

/-- Source `Series::cumsum`: run the local `prefix_sum` (cutoff 512) on the raw data,
drop the leading 0 (`pfs.drain(0..1)` — which panics when `pfs` is empty, i.e.
exactly when the series is empty), and append the total. -/
def cumsum (s : Series) : Option Series :=
  let r := prefixSumAux 512 s.data
  if r.1.isEmpty then none else some ⟨r.1.tail ++ [r.2]⟩

end Series

theorem dropna_eq_self (s : Series) (h : ⊥ ∉ s.data) : s.dropna = ⟨s.data⟩ := by
  simp only [Series.dropna, Series.mk.injEq]
  rw [List.filter_eq_self]
  intro a ha
  have hab : a ≠ ⊥ := fun hab => h (hab ▸ ha)
  simpa using hab

theorem dropna_dropna (s : Series) : (s.dropna).dropna = s.dropna := by
  simp [Series.dropna, List.filter_filter]

theorem sort_dropna (s : Series) : (s.dropna).sort = s.sort := by
  simp only [Series.sort, dropna_dropna]

/-- C4, counterexample.  On `[1.0, NaN]` the code's mean is `1/2` (it divides
the NaN-dropped sum by the *total* length 2), not `sum(valid)/count(valid) = 1`
as the claim states; and on the all-NaN series `[NaN]` it returns the
one-element series `[0.0]`, not the claimed empty result. -/
theorem mean_claim_counterexample :
    Series.mean ⟨[((1 : ℚ) : F), ⊥]⟩ = ⟨[((1 / 2 : ℚ) : F)]⟩ ∧
    Series.mean ⟨[((1 : ℚ) : F), ⊥]⟩ ≠ ⟨[((1 : ℚ) : F)]⟩ ∧
    Series.mean ⟨[⊥]⟩ = ⟨[((0 : ℚ) : F)]⟩ ∧
    Series.mean ⟨[⊥]⟩ ≠ Series.zero := by
  have h1 : Series.mean ⟨[((1 : ℚ) : F), ⊥]⟩ = ⟨[((1 / 2 : ℚ) : F)]⟩ := by
    simp only [Series.mean, Series.sum, Series.dropna, Series.iloc, divW, Series.zero]
    norm_num [WithBot.map_coe]
  have h2 : Series.mean ⟨[⊥]⟩ = ⟨[((0 : ℚ) : F)]⟩ := by
    simp only [Series.mean, Series.sum, Series.dropna, Series.iloc, divW, Series.zero]
    norm_num [WithBot.map_coe]
  refine ⟨h1, ?_, h2, ?_⟩
  · rw [h1]
    simp only [ne_eq, Series.mk.injEq, List.cons.injEq, and_true]
    intro hcontra
    rw [WithBot.coe_inj] at hcontra
    norm_num at hcontra
  · rw [h2]
    simp [Series.zero]

/-- C4, amended.  `mean` returns the empty series exactly when the series
itself is empty (not when the valid data is empty), and otherwise divides the
NaN-dropped sum by the *total* element count — which is nonzero, so no division
by zero ever happens.  The claim's formula `sum(valid)/count(valid)` is
recovered exactly when the series contains no NaN. -/
theorem mean_spec (s : Series) :
    (s.data = [] → s.mean = Series.zero) ∧
    (s.data ≠ [] →
      s.mean = ⟨[divW ((s.dropna).data.sum) ((s.data.length : ℚ))]⟩ ∧
      ((s.data.length : ℚ)) ≠ 0) ∧
    (s.data ≠ [] → ⊥ ∉ s.data →
      s.mean = ⟨[divW ((s.dropna).data.sum) (((s.dropna).data.length : ℚ))]⟩) := by
  have hmain : s.data ≠ [] →
      s.mean = ⟨[divW ((s.dropna).data.sum) ((s.data.length : ℚ))]⟩ := by
    intro h
    simp only [Series.mean, Series.sum, Series.iloc]
    rw [if_neg (by simpa using h)]
    rfl
  refine ⟨?_, fun h => ⟨hmain h, ?_⟩, fun h hb => ?_⟩
  · intro h
    simp only [Series.mean]
    rw [if_pos (by simp [h])]
  · exact Nat.cast_ne_zero.mpr (by simpa using h)
  · rw [hmain h, dropna_eq_self s hb]

/-- C4, witness for the amended theorem at the series `[1.0, NaN]`. -/
theorem mean_spec_witness :
    Series.mean ⟨[((1 : ℚ) : F), ⊥]⟩
        = ⟨[divW ((Series.dropna ⟨[((1 : ℚ) : F), ⊥]⟩).data.sum)
            (((Series.mk [((1 : ℚ) : F), ⊥]).data.length : ℚ))]⟩ ∧
      (((Series.mk [((1 : ℚ) : F), ⊥]).data.length : ℚ)) ≠ 0 :=
  (mean_spec ⟨[((1 : ℚ) : F), ⊥]⟩).2.1 (by simp)

/-- C7, counterexample.  On `[NaN, 5.0]` exactly one valid value remains, and
`median` returns a clone of the whole original series — two elements, NaN
included — instead of the claimed one-element series `[5.0]`. -/
theorem median_claim_counterexample :
    Series.median ⟨[⊥, ((5 : ℚ) : F)]⟩ = ⟨[⊥, ((5 : ℚ) : F)]⟩ ∧
    Series.median ⟨[⊥, ((5 : ℚ) : F)]⟩ ≠ ⟨[((5 : ℚ) : F)]⟩ := by
  have h : Series.median ⟨[⊥, ((5 : ℚ) : F)]⟩ = ⟨[⊥, ((5 : ℚ) : F)]⟩ := by decide
  refine ⟨h, ?_⟩
  rw [h]
  simp

/-- C7, amended.  `median` drops NaNs and sorts ascending; the empty, odd and
even cases are as the claim states (middle element resp. the half of the sum of
the two central elements of the sorted valid data), but when exactly one valid
value remains the code returns a copy of the *entire original* series (NaN
entries included) rather than a one-element series holding that value. -/
theorem median_spec (s : Series) :
    List.Sorted (· ≤ ·) (s.sort).data ∧
    (s.sort).data.Perm (s.dropna).data ∧
    ((s.dropna).data.length = 0 → s.median = Series.zero) ∧
    ((s.dropna).data.length = 1 → s.median = ⟨s.data⟩) ∧
    (2 ≤ (s.dropna).data.length → (s.dropna).data.length % 2 = 1 →
      s.median = ⟨[(s.sort).data.getD ((s.dropna).data.length / 2) ⊥]⟩) ∧
    (2 ≤ (s.dropna).data.length → (s.dropna).data.length % 2 = 0 →
      s.median = ⟨[halveW ((s.sort).data.getD ((s.dropna).data.length / 2 - 1) ⊥
        + (s.sort).data.getD ((s.dropna).data.length / 2) ⊥)]⟩) := by
  refine ⟨List.sorted_insertionSort _ _, List.perm_insertionSort _ _, ?_, ?_, ?_, ?_⟩
  · intro h
    simp only [Series.median]
    rw [if_pos h]
  · intro h
    simp only [Series.median]
    rw [if_neg (by omega), if_pos h]
  · intro h2 hodd
    simp only [Series.median]
    rw [if_neg (by omega), if_neg (by omega), if_pos hodd, sort_dropna]
    rfl
  · intro h2 heven
    simp only [Series.median]
    rw [if_neg (by omega), if_neg (by omega), if_neg (by omega), sort_dropna]
    rfl

/-- C7, witness for the amended theorem: the odd case at `[1.0, 3.0, 2.0]`,
whose median is the middle element `2.0` of the sorted data. -/
theorem median_spec_witness :
    Series.median ⟨[((1 : ℚ) : F), ((3 : ℚ) : F), ((2 : ℚ) : F)]⟩
        = ⟨[(Series.sort ⟨[((1 : ℚ) : F), ((3 : ℚ) : F), ((2 : ℚ) : F)]⟩).data.getD
            ((Series.dropna ⟨[((1 : ℚ) : F), ((3 : ℚ) : F), ((2 : ℚ) : F)]⟩).data.length / 2) ⊥]⟩ ∧
      Series.median ⟨[((1 : ℚ) : F), ((3 : ℚ) : F), ((2 : ℚ) : F)]⟩ = ⟨[((2 : ℚ) : F)]⟩ := by
  have h := (median_spec ⟨[((1 : ℚ) : F), ((3 : ℚ) : F), ((2 : ℚ) : F)]⟩).2.2.2.2.1
    (by decide) (by decide)
  exact ⟨h, h.trans (by decide)⟩

theorem foldl_min_replicate_one :
    ∀ n : Nat, (List.replicate n ((1 : ℚ) : F)).foldl
        (fun a b => if a < b then a else b) ((0 : ℚ) : F) = ((0 : ℚ) : F)
  | 0 => rfl
  | n + 1 => by
    rw [List.replicate_succ, List.foldl_cons]
    rw [if_pos (by exact_mod_cast (by norm_num : (0 : ℚ) < 1))]
    exact foldl_min_replicate_one n

/-- C5.  The claim is right and the code is wrong.  `Series::min`/`Series::max`
open with `if self.is_empty() { Series::zero(); }` — the sentinel is built and
discarded without a `return` — so on an empty series the sequential path
reaches `.reduce(...).unwrap()` on an empty iterator and panics (`none` in the
model) instead of returning the claimed empty result.  Moreover the parallel
path (size ≥ 8192) folds with rayon identity `&0.0`, so on 8192 copies of `1.0`
it returns `[0.0]`, not the least element `1.0`. -/
theorem min_max_code_bug :
    Series.min ⟨[]⟩ = none ∧
    Series.max ⟨[]⟩ = none ∧
    Series.min ⟨List.replicate 8192 ((1 : ℚ) : F)⟩ = some ⟨[((0 : ℚ) : F)]⟩ := by
  refine ⟨rfl, rfl, ?_⟩
  have hlen : (Series.mk (List.replicate 8192 ((1 : ℚ) : F))).data.length = 8192 :=
    List.length_replicate 8192 _
  have hdrop : (Series.dropna ⟨List.replicate 8192 ((1 : ℚ) : F)⟩).data
      = List.replicate 8192 ((1 : ℚ) : F) := by
    simp only [Series.dropna]
    rw [List.filter_replicate_of_pos (by decide)]
  simp only [Series.min, hlen]
  rw [if_neg (by omega), hdrop, foldl_min_replicate_one]

section IncScan

variable {α : Type} [AddCommMonoid α]

/-- Specification-side inclusive prefix scan. -/
def incScan : List α → α → List α
  | [], _ => []
  | x :: rest, acc => (acc + x) :: incScan rest (acc + x)

theorem exScan_concat_incScan (l : List α) (acc : α) :
    exScan l acc ++ [acc + l.sum] = acc :: incScan l acc := by
  induction l generalizing acc with
  | nil => simp [exScan, incScan]
  | cons x rest ih =>
    simp only [exScan, incScan, List.cons_append, List.sum_cons]
    rw [← add_assoc, ih (acc + x)]

theorem tail_exScan_concat (l : List α) (h : l ≠ []) (acc : α) :
    (exScan l acc).tail ++ [acc + l.sum] = incScan l acc := by
  cases l with
  | nil => exact absurd rfl h
  | cons x rest =>
    simp only [exScan, List.tail_cons, List.sum_cons, incScan]
    rw [← add_assoc, exScan_concat_incScan rest (acc + x)]

theorem incScan_getLastD (l : List α) (h : l ≠ []) (acc d : α) :
    (incScan l acc).getLastD d = acc + l.sum := by
  rw [← tail_exScan_concat l h acc, List.getLastD_concat]

end IncScan

theorem chain_incScan {α : Type} [OrderedAddCommMonoid α] :
    ∀ (l : List α) (acc : α), (∀ x ∈ l, 0 ≤ x) → List.Chain' (· ≤ ·) (incScan l acc)
  | [], _, _ => List.chain'_nil
  | x :: rest, acc, h => by
    simp only [incScan]
    rw [List.chain'_cons']
    refine ⟨?_, chain_incScan rest (acc + x) (fun y hy => h y (List.mem_cons_of_mem x hy))⟩
    intro y hy
    cases rest with
    | nil => simp [incScan] at hy
    | cons z t =>
      simp only [incScan, List.head?_cons, Option.mem_def, Option.some.injEq] at hy
      rw [← hy]
      exact le_add_of_nonneg_right (h z (by simp))

theorem cumsum_incScan (s : Series) (h : s.data ≠ []) :
    s.cumsum = some ⟨incScan s.data 0⟩ := by
  simp only [Series.cumsum, prefixSumAux_eq]
  have hne : ¬(exScan s.data (0 : F)).isEmpty = true := by
    rw [List.isEmpty_iff]
    intro hc
    have := exScan_length s.data (0 : F)
    rw [hc] at this
    exact h (List.eq_nil_of_length_eq_zero this.symm)
  rw [if_neg hne]
  have ht := tail_exScan_concat s.data h (0 : F)
  rw [zero_add] at ht
  rw [ht]

/-- C8, counterexample.  On `[NaN]` the last element of `cumsum` is NaN while
`sum` is the NaN-dropped sum `0.0`, so they differ; and on the empty series
`cumsum` panics (`pfs.drain(0..1)` on an empty vector) instead of producing any
last element at all. -/
theorem cumsum_claim_counterexample :
    Series.cumsum ⟨[⊥]⟩ = some ⟨[⊥]⟩ ∧
    Series.sum ⟨[⊥]⟩ = ⟨[((0 : ℚ) : F)]⟩ ∧
    (⊥ : F) ≠ ((0 : ℚ) : F) ∧
    Series.cumsum ⟨[]⟩ = none := by
  refine ⟨?_, by decide, by decide, ?_⟩
  · rw [cumsum_incScan ⟨[⊥]⟩ (by simp)]
    simp [incScan]
  · simp only [Series.cumsum, prefixSumAux_eq]
    rfl

/-- C8, amended.  For a nonempty series containing no NaN, the last element of
`cumsum` equals the `sum` value; and whenever `cumsum` returns at all, it is
non-decreasing if every input element is non-negative (a condition no NaN
satisfies).  The unamended claim fails on NaN-bearing input (NaN propagates
through `cumsum` but is dropped by `sum`) and on the empty series (`cumsum`
panics there). -/
theorem cumsum_spec (s : Series) :
    (s.data ≠ [] → ⊥ ∉ s.data →
      ∃ out : Series, s.cumsum = some out ∧ out.data.getLastD ⊥ = (s.sum).iloc 0) ∧
    (∀ out : Series, s.cumsum = some out → (∀ x ∈ s.data, (0 : F) ≤ x) →
      List.Chain' (· ≤ ·) out.data) := by
  constructor
  · intro hne hnb
    refine ⟨⟨incScan s.data 0⟩, cumsum_incScan s hne, ?_⟩
    rw [incScan_getLastD s.data hne 0 ⊥, zero_add]
    simp only [Series.sum, Series.iloc, dropna_eq_self s hnb]
    rfl
  · intro out hout hnn
    by_cases hne : s.data = []
    · have : s.cumsum = none := by
        simp only [Series.cumsum, prefixSumAux_eq, hne]
        rfl
      rw [this] at hout
      exact absurd hout (by simp)
    · rw [cumsum_incScan s hne] at hout
      have : out = ⟨incScan s.data 0⟩ := by
        injection hout with h
        exact h.symm
      subst this
      exact chain_incScan s.data 0 hnn

/-- C8, witness for the amended theorem at `[1.0, 2.0]`. -/
theorem cumsum_spec_witness :
    ∃ out : Series, Series.cumsum ⟨[((1 : ℚ) : F), ((2 : ℚ) : F)]⟩ = some out ∧
      out.data.getLastD ⊥ = (Series.sum ⟨[((1 : ℚ) : F), ((2 : ℚ) : F)]⟩).iloc 0 :=
  (cumsum_spec ⟨[((1 : ℚ) : F), ((2 : ℚ) : F)]⟩).1 (by simp) (by simp)

/-! ## `DataFrame` from `src/dataframe/mod.rs` (the module exported by
`lib.rs`; the sibling `src/dataframe.rs` is an older copy whose `new`, `copy`,
`head`, `tail` and `dropna` compute the same values through a `parse_axis`
helper). -/

structure DataFrame where
  header_row : List String
  cols : List Series
  rows : List Series
  size : Nat
deriving DecidableEq

/-- The free `transpose`: for each row index `i` in `[0, mat[0].size())`,
collect `mat[j].iloc(i)` across all `j`.  An empty column list is returned
unchanged.  (On ragged input the source's `iloc` panics, so no Table with
ragged columns is ever constructed; the model's `iloc` is total.) -/
def transpose (mat : List Series) : List Series :=
  if mat.length = 0 then mat
  else (List.range ((mat.headD Series.zero).size)).map
    (fun i => Series.new (mat.map (fun c => c.iloc i)))

namespace DataFrame

/-- Source `DataFrame::gen_default_header`: the positional names `"0", "1", …`. -/
def gen_default_header (len : Nat) : List String :=
  (List.range len).map (fun x => toString x)

/-- Source `DataFrame::new`: recompute `rows` as the transpose of the columns, count
cells, and default the header to positional indices sized by the first row. -/
def new (data : List Series) (header_row : Option (List String)) : DataFrame :=
  let rows := transpose data
  let size := rows.length * data.length
  let header := header_row.getD (gen_default_header ((rows.headD Series.zero).size))
  ⟨header, data, rows, size⟩

/-- Source `DataFrame::copy`. -/
def copy (t : DataFrame) : DataFrame := new t.cols (some t.header_row)

end DataFrame

namespace Series

/-- Source `Series::slice`: clamp `end` to the size and take `data[start..end]`.
(For `start > end` the source's slicing panics; the model returns `[]`, a case
no caller below reaches.) -/
def slice (s : Series) (start stop : Nat) : Series :=
  ⟨(s.data.take (Min.min stop s.data.length)).drop start⟩

end Series

/-- NaN-propagating subtraction on `F`: `x - y`, and `⊥` if either operand is `⊥`. -/
def subW (x y : F) : F := Option.bind x (fun a => Option.map (fun b => a - b) y)

/-- NaN-propagating squaring on `F` (source `pow(x, 2)` on `f64`). -/
def sqW (x : F) : F := WithBot.map (fun q => q * q) x

/-- Division of the squared-deviation sum by `n - 1.0` in `Series::var`.  The
divisor is zero only when the valid count is 1, and there the numerator is
exactly `0.0` (the single point equals its own mean), so the source's `f64`
division yields `0.0 / 0.0 = NaN`, modelled by `⊥`; for two or more valid
points the divisor is nonzero and the division is ordinary. -/
def varDiv (x : F) (d : ℚ) : F := if d = 0 then ⊥ else divW x d

namespace Series

/-- Source `Series::var`: drop the NaNs; with no valid value left return the
empty series; otherwise divide the sum of squared deviations from the valid
data's mean by `n - 1`, where `n` is the valid count.  Both dispatch branches
compute the same value. -/
def var (s : Series) : Series :=
  if (s.dropna).is_empty then zero
  else
    ⟨[varDiv (((s.dropna).data.map
        (fun x => sqW (subW x ((s.dropna).mean.iloc 0)))).sum)
      (((s.dropna).data.length : ℚ) - 1)]⟩

end Series

namespace DataFrame

/-- Source `DataFrame::head`: slice every column to its first `n` elements. -/
def head (t : DataFrame) (n : Nat) : DataFrame :=
  new (t.cols.map (fun x => x.slice 0 n)) (some t.header_row)

/-- Source `DataFrame::tail`: slice every column to its last `n` elements.  (`x.size()
- n` is saturating here; for `n > size` the source's `usize` subtraction panics
in debug builds, a case no claim exercises.) -/
def tail (t : DataFrame) (n : Nat) : DataFrame :=
  new (t.cols.map (fun x => x.slice (x.size - n) x.size)) (some t.header_row)

/-- Source `DataFrame::dropna`: drop every column (axis 0) or cached row (axis 1) that
contains a NaN, detected via `isna()` holding a `1.0`.  Note axis 0 passes the
*original, unfiltered* header to the constructor. -/
def dropna (t : DataFrame) (axis : Nat) : DataFrame :=
  if axis = 0 then
    new (t.cols.filter (fun s => !((s.isna).data.any (fun x => x == ((1 : ℚ) : F)))))
      (some t.header_row)
  else
    new (t.rows.filter (fun s => !((s.isna).data.any (fun x => x == ((1 : ℚ) : F))))) none

/-- Source `DataFrame::sum` via the `parse_axis!` macro: axis 0 reduces every column
and keeps the header, axis 1 reduces every cached row and drops it. -/
def sum (t : DataFrame) (axis : Nat) : DataFrame :=
  if axis = 0 then new (t.cols.map Series.sum) (some t.header_row)
  else new (t.rows.map Series.sum) none

/-- Source `DataFrame::var`: `let valid = self.dropna(axis)` followed by the
`parse_axis!` dispatch on `valid` — so axis 0 maps `Series::var` over the
NaN-filtered columns but passes on `valid`'s header, which `dropna(0)` left as
the original unfiltered one.  (`DataFrame::std` follows the identical
`dropna`-then-dispatch path.) -/
def var (t : DataFrame) (axis : Nat) : DataFrame :=
  let valid := t.dropna axis
  if axis = 0 then new (valid.cols.map Series.var) (some valid.header_row)
  else new (valid.rows.map Series.var) none

/-- Source `DataFrame::insert_col`: guard `pos > cols.len() + 1`, then
`Vec::insert` into the cloned columns and header (which itself panics when
`pos` exceeds the length being inserted into), keeping the OLD `rows`
unchanged and recomputing only `size`. -/
def insert_col (t : DataFrame) (pos : Nat) (column_name : String) (column : Series) :
    Option DataFrame :=
  if pos > t.cols.length + 1 then none
  else if pos ≤ t.cols.length then
    if pos ≤ t.header_row.length then
      let cols := t.cols.insertIdx pos column
      let headers := t.header_row.insertIdx pos column_name
      some ⟨headers, cols, t.rows, cols.length * t.rows.length⟩
    else none
  else none

end DataFrame

/-- C1.  The claim is right and the code is wrong.  Every listed operation
except `insert_col` routes through `DataFrame::new`, which recomputes
`rows = transpose(columns)` — the first two conjuncts verify this
"by construction" argument.  But `insert_col` builds the struct literally with
`rows: self.rows.clone()` while inserting a new column, so its result violates
the invariant: inserting a second column into a 1×1 table leaves `rows` as the
old single 1-element row while `transpose(columns)` is the new 2-element row. -/
theorem insert_col_breaks_invariant :
    (∀ (data : List Series) (h : Option (List String)),
      (DataFrame.new data h).rows = transpose (DataFrame.new data h).cols) ∧
    (∀ (t : DataFrame) (n axis : Nat),
      (t.copy).rows = transpose (t.copy).cols ∧
      (t.head n).rows = transpose (t.head n).cols ∧
      (t.tail n).rows = transpose (t.tail n).cols ∧
      (t.dropna axis).rows = transpose (t.dropna axis).cols ∧
      (t.sum axis).rows = transpose (t.sum axis).cols) ∧
    (∃ u : DataFrame,
      DataFrame.insert_col (DataFrame.new [Series.new [((1 : ℚ) : F)]] none) 1 "X"
        (Series.new [((2 : ℚ) : F)]) = some u ∧ u.rows ≠ transpose u.cols) := by
  refine ⟨fun _ _ => rfl, fun t n axis => ⟨rfl, rfl, rfl, ?_, ?_⟩, ?_⟩
  · by_cases haxis : axis = 0
    · simp only [DataFrame.dropna, if_pos haxis]
      rfl
    · simp only [DataFrame.dropna, if_neg haxis]
      rfl
  · by_cases haxis : axis = 0
    · simp only [DataFrame.sum, if_pos haxis]
      rfl
    · simp only [DataFrame.sum, if_neg haxis]
      rfl
  · exact ⟨⟨["0", "X"], [Series.new [((1 : ℚ) : F)], Series.new [((2 : ℚ) : F)]],
      [Series.new [((1 : ℚ) : F)]], 2⟩, by decide, by decide⟩

theorem insertIdx_eq_take_cons_drop {β : Type} :
    ∀ (pos : Nat) (l : List β) (_ : pos ≤ l.length) (a : β),
      l.insertIdx pos a = l.take pos ++ a :: l.drop pos
  | 0, l, _, a => by simp [List.insertIdx_zero]
  | _ + 1, [], h, _ => by simp at h
  | pos + 1, x :: tl, h, a => by
    rw [List.insertIdx_succ_cons, insertIdx_eq_take_cons_drop pos tl (by simpa using h) a]
    simp

/-- C9, counterexample.  With one column, `pos = 2 = columns.length + 1` passes
the code's guard (`pos > columns.len() + 1` is false), yet the call fails:
`Vec::insert` panics because `2` exceeds the length `1` of the column vector.
The claim says the call fails *exactly* when `pos > columns.length + 1`, so it
wrongly predicts success here. -/
theorem insert_col_claim_counterexample :
    DataFrame.insert_col (DataFrame.new [Series.new [((1 : ℚ) : F)]] none) 2 "X"
      (Series.new [((2 : ℚ) : F)]) = none ∧
    ¬(2 > (DataFrame.new [Series.new [((1 : ℚ) : F)]] none).cols.length + 1) :=
  ⟨by decide, by decide⟩

/-- C9, amended.  For a well-formed table (header and columns of equal length),
`insert_col(pos, name, column)` fails exactly when `pos > columns.length`
(the guard only rejects `pos > columns.length + 1`, but `pos =
columns.length + 1` then panics inside `Vec::insert`); for `pos ≤
columns.length` it succeeds, inserting `column` at `pos` in the columns and
`name` at `pos` in the header, keeping the old rows. -/
theorem insert_col_spec (t : DataFrame) (pos : Nat) (name : String) (c : Series)
    (hlen : t.header_row.length = t.cols.length) :
    (t.insert_col pos name c = none ↔ t.cols.length < pos) ∧
    (pos ≤ t.cols.length →
      ∃ u : DataFrame, t.insert_col pos name c = some u ∧
        u.cols = t.cols.take pos ++ c :: t.cols.drop pos ∧
        u.header_row = t.header_row.take pos ++ name :: t.header_row.drop pos ∧
        u.rows = t.rows ∧
        u.header_row.length = u.cols.length) := by
  constructor
  · constructor
    · intro hnone
      by_contra hcon
      push_neg at hcon
      simp only [DataFrame.insert_col] at hnone
      rw [if_neg (by omega), if_pos hcon, if_pos (by omega)] at hnone
      exact absurd hnone (by simp)
    · intro hlt
      simp only [DataFrame.insert_col]
      by_cases hg : pos > t.cols.length + 1
      · rw [if_pos hg]
      · rw [if_neg hg, if_neg (by omega)]
  · intro hp
    refine ⟨⟨t.header_row.insertIdx pos name, t.cols.insertIdx pos c, t.rows,
        (t.cols.insertIdx pos c).length * t.rows.length⟩, ?_, ?_, ?_, rfl, ?_⟩
    · simp only [DataFrame.insert_col]
      rw [if_neg (by omega), if_pos hp, if_pos (by omega)]
    · exact insertIdx_eq_take_cons_drop pos t.cols hp c
    · exact insertIdx_eq_take_cons_drop pos t.header_row (by omega) name
    · dsimp only
      rw [List.length_insertIdx pos t.header_row (by omega),
        List.length_insertIdx pos t.cols hp, hlen]

/-- C9, witness for the amended theorem: inserting at position 0 of a 1-column
table succeeds with the column and name prepended. -/
theorem insert_col_spec_witness :
    ∃ u : DataFrame,
      DataFrame.insert_col (DataFrame.new [Series.new [((1 : ℚ) : F)]] none) 0 "X"
          (Series.new [((2 : ℚ) : F)]) = some u ∧
        u.cols = (DataFrame.new [Series.new [((1 : ℚ) : F)]] none).cols.take 0
            ++ Series.new [((2 : ℚ) : F)]
              :: (DataFrame.new [Series.new [((1 : ℚ) : F)]] none).cols.drop 0 ∧
        u.header_row = (DataFrame.new [Series.new [((1 : ℚ) : F)]] none).header_row.take 0
            ++ "X" :: (DataFrame.new [Series.new [((1 : ℚ) : F)]] none).header_row.drop 0 ∧
        u.rows = (DataFrame.new [Series.new [((1 : ℚ) : F)]] none).rows ∧
        u.header_row.length = u.cols.length :=
  (insert_col_spec (DataFrame.new [Series.new [((1 : ℚ) : F)]] none) 0 "X"
    (Series.new [((2 : ℚ) : F)]) (by decide)).2 (by decide)

theorem gen_default_header_length (n : Nat) :
    (DataFrame.gen_default_header n).length = n := by
  simp [DataFrame.gen_default_header]

theorem length_filter_lt_of_mem {α : Type} (p : α → Bool) (l : List α) (a : α)
    (ha : a ∈ l) (hpa : p a = false) : (l.filter p).length < l.length := by
  induction l with
  | nil => cases ha
  | cons x xs ih =>
    rw [List.filter_cons]
    by_cases hpx : p x = true
    · rw [if_pos hpx]
      have hmem : a ∈ xs := by
        rcases List.mem_cons.mp ha with h | h
        · subst h
          rw [hpx] at hpa
          exact absurd hpa (by decide)
        · exact h
      simp only [List.length_cons]
      exact Nat.succ_lt_succ (ih hmem)
    · rw [if_neg hpx]
      simp only [List.length_cons]
      exact Nat.lt_succ_of_le (List.length_filter_le p xs)

/-- C10, counterexample.  Build a 1-row table with columns `[1.0]` and `[NaN]`
(default header `["0", "1"]`), then `dropna(0)`: the NaN column is removed but
the constructor is handed the *original two-name header*, leaving 2 header
entries for 1 column. -/
theorem dropna_header_counterexample :
    ((DataFrame.new [Series.new [((1 : ℚ) : F)], Series.new [(⊥ : F)]] none).dropna 0).header_row.length
        = 2 ∧
    ((DataFrame.new [Series.new [((1 : ℚ) : F)], Series.new [(⊥ : F)]] none).dropna 0).cols.length
        = 1 ∧
    ((DataFrame.new [Series.new [((1 : ℚ) : F)], Series.new [(⊥ : F)]] none).dropna 0).header_row.length
        ≠ ((DataFrame.new [Series.new [((1 : ℚ) : F)], Series.new [(⊥ : F)]] none).dropna 0).cols.length :=
  ⟨by decide, by decide, by decide⟩

/-- C10, amended.  The constructor itself does not enforce the one-name-per-
column correspondence (it stores whatever header it is given), and
`dropna(axis 0)` *breaks* it whenever it removes a NaN-containing column,
because it passes the original unfiltered header alongside the filtered
columns; `var(axis 0)` — which first calls that same `dropna(0)`, exactly as
`std(axis 0)` does — inherits the break: on a well-formed table with a
NaN-containing column it returns the full original header over strictly fewer
columns.  The correspondence *is* preserved by `copy`, `head`, `tail`, an
axis-0 reduction applied directly to the columns (shown for `sum`, whose
`parse_axis!` dispatch maps one result series per column), and by
`dropna(axis 1)` on tables whose cached rows are genuine rows (one entry per
column). -/
theorem header_cols_spec (data : List Series) (h : List String) (t : DataFrame) (n : Nat)
    (hwf : t.header_row.length = t.cols.length) :
    ((DataFrame.new data (some h)).header_row = h ∧ (DataFrame.new data (some h)).cols = data) ∧
    (t.copy).header_row.length = (t.copy).cols.length ∧
    (t.head n).header_row.length = (t.head n).cols.length ∧
    (t.tail n).header_row.length = (t.tail n).cols.length ∧
    (t.sum 0).header_row.length = (t.sum 0).cols.length ∧
    ((t.cols ≠ [] ∨ t.rows = []) → (∀ r ∈ t.rows, r.size = t.cols.length) →
      (t.dropna 1).header_row.length = (t.dropna 1).cols.length) ∧
    ((∃ c ∈ t.cols, (⊥ : F) ∈ c.data) →
      (t.var 0).header_row = t.header_row ∧
      (t.var 0).cols.length < (t.var 0).header_row.length) := by
  refine ⟨⟨rfl, rfl⟩, hwf, ?_, ?_, ?_, ?_, ?_⟩
  · show t.header_row.length = (t.cols.map (fun x => x.slice 0 n)).length
    rw [List.length_map]
    exact hwf
  · show t.header_row.length = (t.cols.map (fun x => x.slice (x.size - n) x.size)).length
    rw [List.length_map]
    exact hwf
  · show t.header_row.length = (t.cols.map Series.sum).length
    rw [List.length_map]
    exact hwf
  · intro hnz hrows
    show (DataFrame.new
        (t.rows.filter (fun s => !((s.isna).data.any (fun x => x == ((1 : ℚ) : F)))))
        none).header_row.length
      = (DataFrame.new
        (t.rows.filter (fun s => !((s.isna).data.any (fun x => x == ((1 : ℚ) : F)))))
        none).cols.length
    cases hfr : t.rows.filter (fun s => !((s.isna).data.any (fun x => x == ((1 : ℚ) : F)))) with
    | nil => decide
    | cons r0 fr =>
      have hr0 : r0 ∈ t.rows := by
        have hmem : r0 ∈ t.rows.filter (fun s => !((s.isna).data.any (fun x => x == ((1 : ℚ) : F)))) := by
          rw [hfr]
          exact List.mem_cons_self _ _
        exact List.mem_of_mem_filter hmem
      have hr0size : r0.size = t.cols.length := hrows r0 hr0
      have hcpos : t.cols.length ≠ 0 := by
        rcases hnz with hc | hr
        · intro hzero
          exact hc (List.eq_nil_of_length_eq_zero hzero)
        · rw [hr] at hr0
          exact absurd hr0 (List.not_mem_nil r0)
      show (DataFrame.gen_default_header
          ((transpose (r0 :: fr)).headD Series.zero).size).length = (r0 :: fr).length
      rw [gen_default_header_length]
      rw [show transpose (r0 :: fr)
          = (List.range r0.size).map
              (fun i => Series.new ((r0 :: fr).map (fun c => c.iloc i))) from by
        rw [transpose, if_neg (by simp)]
        rfl]
      obtain ⟨c', hc'⟩ : ∃ c', r0.size = c' + 1 := ⟨r0.size - 1, by omega⟩
      rw [hc', List.range_succ_eq_map, List.map_cons, List.headD_cons]
      simp [Series.new, Series.size]
  · rintro ⟨c, hcmem, hcbot⟩
    refine ⟨rfl, ?_⟩
    show ((t.dropna 0).cols.map Series.var).length < t.header_row.length
    rw [List.length_map, hwf]
    show (t.cols.filter
        (fun s => !((s.isna).data.any (fun x => x == ((1 : ℚ) : F))))).length
      < t.cols.length
    refine length_filter_lt_of_mem _ _ c hcmem ?_
    show (!((c.isna).data.any (fun x => x == ((1 : ℚ) : F)))) = false
    rw [Bool.not_eq_false']
    refine List.any_eq_true.mpr ⟨((1 : ℚ) : F), ?_, by decide⟩
    show ((1 : ℚ) : F)
      ∈ c.data.map (fun x => if x == ⊥ then ((1 : ℚ) : F) else ((0 : ℚ) : F))
    exact List.mem_map.mpr ⟨⊥, hcbot, by decide⟩

/-- C10, witness for the amended theorem: `dropna(1)` on a well-formed 1×1
table keeps one header entry per column, and `var(0)` on a well-formed 1-row
table whose second column is NaN drops that column while keeping both header
entries. -/
theorem header_cols_spec_witness :
    (((DataFrame.new [Series.new [((1 : ℚ) : F)]] none).dropna 1).header_row.length
      = ((DataFrame.new [Series.new [((1 : ℚ) : F)]] none).dropna 1).cols.length) ∧
    (((DataFrame.new [Series.new [((1 : ℚ) : F)], Series.new [(⊥ : F)]] none).var 0).cols.length
      < ((DataFrame.new [Series.new [((1 : ℚ) : F)], Series.new [(⊥ : F)]] none).var 0).header_row.length) :=
  ⟨(header_cols_spec [] [] (DataFrame.new [Series.new [((1 : ℚ) : F)]] none) 0
      (by decide)).2.2.2.2.2.1 (Or.inl (by decide)) (by decide),
   ((header_cols_spec [] []
        (DataFrame.new [Series.new [((1 : ℚ) : F)], Series.new [(⊥ : F)]] none) 0
      (by decide)).2.2.2.2.2.2 ⟨Series.new [(⊥ : F)], by decide, by decide⟩).2⟩

/-! ## `Series::mode`.

The source sorts the NaN-dropped data, records every boundary index `i ≥ 1`
with `data[i-1] != data[i]`, slices the sorted data at those boundaries into
groups of equal values, and returns the longest group via rayon
`max_by_key(|g| g.len())` (latest wins on ties).  When the boundary list is
empty — at least two valid values, all equal — `indices[0]` panics. -/

/-- The boundary-collecting loop `for i in 1..data.size()`, carrying the
previous element and the current index. -/
def changeAux : F → List F → Nat → List Nat
  | _, [], _ => []
  | prev, y :: rest, i =>
    if prev == y then changeAux y rest (i + 1) else i :: changeAux y rest (i + 1)

/-- The boundary indices of a sorted data vector. -/
def changeIdx : List F → List Nat
  | [] => []
  | x :: xs => changeAux x xs 1

/-- Source `indices.par_windows(2)`. -/
def windows2 : List Nat → List (Nat × Nat)
  | a :: b :: rest => (a, b) :: windows2 (b :: rest)
  | _ => []

/-- One step of `max_by_key(|g| g.len())`: the later group wins ties. -/
def pickLonger (b g : List F) : List F := if b.length ≤ g.length then g else b

/-- Source `groups.max_by_key(|g| g.len()).unwrap()` (groups is nonempty at the call
site): rayon returns the item with the highest index among maximal ones, the
same as this left fold. -/
def maxByLenLast : List (List F) → List F
  | [] => []
  | g :: gs => gs.foldl pickLonger g

/-- Source `Series::mode`. -/
def Series.mode (s : Series) : Option Series :=
  if (s.dropna).data.length = 0 then some Series.zero
  else if (s.dropna).data.length = 1 then some ⟨s.data⟩
  else
    match changeIdx ((s.dropna).sort).data with
    | [] => none
    | i0 :: irest =>
      some ⟨maxByLenLast
        ((((s.dropna).sort).data.take i0)
          :: ((windows2 (i0 :: irest)).map
                (fun w => ((((s.dropna).sort).data.drop w.1).take (w.2 - w.1)))
              ++ [((s.dropna).sort).data.drop ((i0 :: irest).getLastD 0)]))⟩

/-- Specification-side decomposition of a list into maximal runs of equal
values. -/
def runsSpec : List F → List (List F)
  | [] => []
  | x :: xs =>
    (x :: xs.takeWhile (fun y => y == x)) :: runsSpec (xs.dropWhile (fun y => y == x))
termination_by l => l.length
decreasing_by
  simp only [List.length_cons]
  exact Nat.lt_succ_of_le ((List.dropWhile_sublist _).length_le)

/-- Proof-side: the slices of `data` between consecutive members of
`prev :: idxs`, with the final slice running to the end. -/
def slicesFrom (data : List F) : Nat → List Nat → List (List F)
  | prev, [] => [data.drop prev]
  | prev, i :: rest => ((data.drop prev).take (i - prev)) :: slicesFrom data i rest

theorem changeAux_shift : ∀ (l : List F) (p : F) (i k : Nat),
    changeAux p l (i + k) = (changeAux p l i).map (fun j => j + k)
  | [], _, _, _ => rfl
  | y :: rest, p, i, k => by
    simp only [changeAux]
    by_cases h : (p == y) = true
    · rw [if_pos h, if_pos h, show i + k + 1 = (i + 1) + k from by omega,
        changeAux_shift rest y (i + 1) k]
    · rw [if_neg h, if_neg h, List.map_cons,
        show i + k + 1 = (i + 1) + k from by omega,
        changeAux_shift rest y (i + 1) k]

theorem changeAux_eq_nil_iff : ∀ (l : List F) (p : F) (i : Nat),
    (changeAux p l i = [] ↔ ∀ y ∈ l, y = p)
  | [], p, i => by simp [changeAux]
  | y :: rest, p, i => by
    simp only [changeAux]
    by_cases h : (p == y) = true
    · have hy : y = p := (beq_iff_eq.mp h).symm
      subst hy
      rw [if_pos h, changeAux_eq_nil_iff rest y (i + 1)]
      simp
    · rw [if_neg h]
      constructor
      · intro hc
        exact absurd hc (by simp)
      · intro hall
        exfalso
        have hyp := hall y (List.mem_cons_self y rest)
        rw [hyp] at h
        simp at h

theorem changeAux_peel : ∀ (pre : List F) (p r0 : F) (r1 : List F) (i : Nat),
    (∀ y ∈ pre, y = p) → (p == r0) = false →
    changeAux p (pre ++ r0 :: r1) i
      = (i + pre.length) :: changeAux r0 r1 (i + pre.length + 1)
  | [], p, r0, r1, i, _, hne => by
    simp only [List.nil_append, changeAux, hne, Bool.false_eq_true, if_false,
      List.length_nil, Nat.add_zero]
  | q :: pre, p, r0, r1, i, hall, hne => by
    have hq : q = p := hall q (List.mem_cons_self q pre)
    subst hq
    simp only [List.cons_append, changeAux, beq_self_eq_true, if_true, List.append_eq]
    rw [changeAux_peel pre q r0 r1 (i + 1)
      (fun y hy => hall y (List.mem_cons_of_mem q hy)) hne]
    simp only [List.length_cons]
    rw [show i + 1 + pre.length = i + (pre.length + 1) from by omega]

theorem dropWhile_head_false {p : F → Bool} : ∀ (l : List F) (r0 : F) (r1 : List F),
    l.dropWhile p = r0 :: r1 → p r0 = false
  | [], _, _, h => by simp at h
  | y :: rest, r0, r1, h => by
    rw [List.dropWhile_cons] at h
    by_cases hy : p y = true
    · rw [if_pos hy] at h
      exact dropWhile_head_false rest r0 r1 h
    · rw [if_neg hy] at h
      injection h with h1 _
      rw [← h1]
      simpa using hy

theorem slicesFrom_shift (front rest : List F) :
    ∀ (cs : List Nat) (prev : Nat),
      slicesFrom (front ++ rest) (front.length + prev) (cs.map (fun j => j + front.length))
        = slicesFrom rest prev cs
  | [], prev => by
    simp only [List.map_nil, slicesFrom]
    rw [← List.drop_drop, List.drop_left]
  | c :: cs, prev => by
    simp only [List.map_cons, slicesFrom]
    have hdrop : (front ++ rest).drop (front.length + prev) = rest.drop prev := by
      rw [← List.drop_drop, List.drop_left]
    rw [hdrop, show c + front.length - (front.length + prev) = c - prev from by omega]
    rw [show c + front.length = front.length + c from by omega, slicesFrom_shift front rest cs c]

theorem slicesFrom_windows (data : List F) : ∀ (idxs : List Nat) (i : Nat),
    slicesFrom data i idxs
      = (windows2 (i :: idxs)).map (fun w => (data.drop w.1).take (w.2 - w.1))
          ++ [data.drop ((i :: idxs).getLastD 0)]
  | [], i => by simp [slicesFrom, windows2]
  | j :: rest, i => by
    simp only [slicesFrom, windows2, List.map_cons, List.cons_append]
    rw [List.getLastD_cons, getLastD_irrel (α := Nat) (j :: rest) (by simp) i 0,
      slicesFrom_windows data rest j]

theorem beq_symm_false {a b : F} (h : (a == b) = false) : (b == a) = false := by
  by_cases hc : (b == a) = true
  · rw [beq_iff_eq.mp hc] at h
    simp at h
  · simpa using hc

theorem slicesFrom_eq_runsSpec (data : List F) (hdne : data ≠ []) :
    slicesFrom data 0 (changeIdx data) = runsSpec data := by
  have key : ∀ (n : Nat) (l : List F), l.length ≤ n → l ≠ [] →
      slicesFrom l 0 (changeIdx l) = runsSpec l := by
    intro n
    induction n with
    | zero =>
      intro l hl hne
      exact absurd (List.eq_nil_of_length_eq_zero (Nat.le_zero.mp hl)) hne
    | succ n ih =>
      intro l hl hlne
      cases l with
      | nil => exact absurd rfl hlne
      | cons x xs =>
        have hxs : xs.takeWhile (fun y => y == x) ++ xs.dropWhile (fun y => y == x) = xs :=
          List.takeWhile_append_dropWhile _ xs
        have hpre : ∀ y ∈ xs.takeWhile (fun y => y == x), y = x := fun y hy =>
          beq_iff_eq.mp (List.mem_takeWhile_imp (p := fun y => y == x) hy)
        have hruns : runsSpec (x :: xs)
            = (x :: xs.takeWhile (fun y => y == x))
                :: runsSpec (xs.dropWhile (fun y => y == x)) := by
          rw [runsSpec]
        generalize hgp : xs.takeWhile (fun y => y == x) = pre at hxs hpre hruns
        generalize hgr : xs.dropWhile (fun y => y == x) = rest at hxs hruns
        cases rest with
        | nil =>
          rw [List.append_nil] at hxs
          have hnil : changeAux x xs 1 = [] := by
            rw [changeAux_eq_nil_iff]
            intro y hy
            exact hpre y (by rwa [hxs])
          show slicesFrom (x :: xs) 0 (changeAux x xs 1) = runsSpec (x :: xs)
          rw [hnil, hruns]
          simp only [slicesFrom, List.drop_zero, runsSpec]
          rw [← hxs]
        | cons r0 r1 =>
          have hr0 : ((fun y => y == x) r0) = false :=
            dropWhile_head_false xs r0 r1 hgr
          have hxr0 : (x == r0) = false := beq_symm_false hr0
          have hpeel : changeAux x xs 1
              = (1 + pre.length) :: changeAux r0 r1 (1 + pre.length + 1) := by
            rw [← hxs]
            exact changeAux_peel pre x r0 r1 1 hpre hxr0
          have hshift : changeAux r0 r1 (1 + pre.length + 1)
              = (changeAux r0 r1 1).map (fun j => j + (pre.length + 1)) := by
            rw [show 1 + pre.length + 1 = 1 + (pre.length + 1) from by omega]
            exact changeAux_shift r1 r0 1 (pre.length + 1)
          show slicesFrom (x :: xs) 0 (changeAux x xs 1) = runsSpec (x :: xs)
          rw [hpeel, hshift, hruns]
          simp only [slicesFrom, List.drop_zero, Nat.sub_zero]
          have hfront : x :: xs = (x :: pre) ++ (r0 :: r1) := by
            rw [← hxs]
            rfl
          congr 1
          · rw [hfront, List.take_left' (by simp [Nat.add_comm])]
          · have hs := slicesFrom_shift (x :: pre) (r0 :: r1) (changeAux r0 r1 1) 0
            simp only [List.length_cons, Nat.add_zero] at hs
            rw [hfront, show 1 + pre.length = pre.length + 1 from by omega, hs]
            apply ih
            · have hlen2 : (r0 :: r1).length ≤ xs.length := by
                rw [← hxs]
                simp
              have hxl : xs.length + 1 ≤ n + 1 := by simpa using hl
              omega
            · simp
  exact key data.length data le_rfl hdne

theorem foldl_pickLonger_decomp : ∀ (gs : List (List F)) (b : List F),
    ∃ pre post, b :: gs = pre ++ (gs.foldl pickLonger b) :: post ∧
      (∀ g ∈ b :: gs, g.length ≤ (gs.foldl pickLonger b).length) ∧
      (∀ g ∈ post, g.length < (gs.foldl pickLonger b).length)
  | [], b => ⟨[], [], rfl, by simp, by simp⟩
  | g :: gs, b => by
    simp only [List.foldl_cons]
    obtain ⟨pre, post, hdecomp, hmax, hpost⟩ := foldl_pickLonger_decomp gs (pickLonger b g)
    by_cases hbg : b.length ≤ g.length
    · rw [pickLonger, if_pos hbg] at hdecomp hmax hpost ⊢
      refine ⟨b :: pre, post, ?_, ?_, hpost⟩
      · rw [List.cons_append, ← hdecomp]
      · intro z hz
        rcases List.mem_cons.mp hz with hzb | hzgs
        · subst hzb
          exact le_trans hbg (hmax g (List.mem_cons_self g gs))
        · exact hmax z hzgs
    · rw [pickLonger, if_neg hbg] at hdecomp hmax hpost ⊢
      have hgb : g.length < b.length := by omega
      have hgres : g.length < (gs.foldl pickLonger b).length :=
        lt_of_lt_of_le hgb (hmax b (List.mem_cons_self b gs))
      cases pre with
      | nil =>
        simp only [List.nil_append] at hdecomp
        have hb : b = gs.foldl pickLonger b := by
          injection hdecomp with h1 _
        have hgs : gs = post := by
          injection hdecomp with _ h2
        refine ⟨[], g :: post, ?_, ?_, ?_⟩
        · simp only [List.nil_append]
          rw [← hb, hgs]
        · intro z hz
          rcases List.mem_cons.mp hz with hzb | hzgs
          · rw [hzb]
            exact hmax b (List.mem_cons_self b gs)
          · rcases List.mem_cons.mp hzgs with hzg | hzgs2
            · subst hzg
              exact le_of_lt hgres
            · exact hmax z (List.mem_cons_of_mem b hzgs2)
        · intro z hz
          rcases List.mem_cons.mp hz with hzg | hzpost
          · subst hzg
            exact hgres
          · exact hpost z hzpost
      | cons p0 pre2 =>
        have hp0 : p0 = b := by
          rw [List.cons_append] at hdecomp
          injection hdecomp with h1 _
          exact h1.symm
        have hgs : gs = pre2 ++ (gs.foldl pickLonger b) :: post := by
          rw [List.cons_append] at hdecomp
          injection hdecomp with _ h2
        refine ⟨b :: g :: pre2, post, ?_, ?_, hpost⟩
        · rw [List.cons_append, List.cons_append, ← hgs]
        · intro z hz
          rcases List.mem_cons.mp hz with hzb | hzgs
          · rw [hzb]
            exact hmax b (List.mem_cons_self b gs)
          · rcases List.mem_cons.mp hzgs with hzg | hzgs2
            · subst hzg
              exact le_of_lt hgres
            · exact hmax z (List.mem_cons_of_mem b hzgs2)

/-- C6, counterexample.  On `[1.0, 2.0]` the two runs `[1.0]` and `[2.0]` tie
in size; rayon's `max_by_key` keeps the *last* maximal item, so `mode` returns
`[2.0]` — the largest value — not the claimed first-appearing/smallest run
`[1.0]`.  (A second divergence: on `[2.0, 2.0]` — at least one valid value, as
the claim requires — the boundary list is empty and `indices[0]` panics.) -/
theorem mode_claim_counterexample :
    Series.mode ⟨[((1 : ℚ) : F), ((2 : ℚ) : F)]⟩ = some ⟨[((2 : ℚ) : F)]⟩ ∧
    Series.mode ⟨[((1 : ℚ) : F), ((2 : ℚ) : F)]⟩ ≠ some ⟨[((1 : ℚ) : F)]⟩ ∧
    Series.mode ⟨[((2 : ℚ) : F), ((2 : ℚ) : F)]⟩ = none := by
  refine ⟨by decide, ?_, by decide⟩
  intro hc
  have : Series.mode ⟨[((1 : ℚ) : F), ((2 : ℚ) : F)]⟩ = some ⟨[((2 : ℚ) : F)]⟩ := by decide
  rw [this] at hc
  simp only [Option.some.injEq, Series.mk.injEq, List.cons.injEq, and_true] at hc
  rw [WithBot.coe_inj] at hc
  norm_num at hc

/-- C6, amended.  With at least two valid values, not all equal, `mode` returns
the entire contents of the *last-appearing* maximal-size run of equal values in
the ascending-sorted NaN-dropped data (so ties among equally-sized runs resolve
to the *largest* value, and the result is the whole run, not a single copy);
with all valid values equal (and at least two of them) it panics; with exactly
one valid value it returns a copy of the entire original series. -/
theorem mode_spec (s : Series) :
    ((s.dropna).data.length = 1 → s.mode = some ⟨s.data⟩) ∧
    (2 ≤ (s.dropna).data.length →
      (∀ a ∈ (s.sort).data, ∀ b ∈ (s.sort).data, a = b) → s.mode = none) ∧
    (2 ≤ (s.dropna).data.length →
      (∃ a ∈ (s.sort).data, ∃ b ∈ (s.sort).data, a ≠ b) →
      ∃ r pre post, runsSpec (s.sort).data = pre ++ r :: post ∧
        s.mode = some ⟨r⟩ ∧
        (∀ g ∈ runsSpec (s.sort).data, g.length ≤ r.length) ∧
        (∀ g ∈ post, g.length < r.length)) := by
  have hsortlen : (s.sort).data.length = (s.dropna).data.length :=
    List.length_insertionSort _ _
  refine ⟨?_, ?_, ?_⟩
  · intro h1
    simp only [Series.mode]
    rw [if_neg (by omega), if_pos h1]
  · intro h2 hall
    obtain ⟨y, ys, hyy⟩ : ∃ y ys, (s.sort).data = y :: ys := by
      cases hc : (s.sort).data with
      | nil =>
        rw [hc] at hsortlen
        simp at hsortlen
        omega
      | cons y ys => exact ⟨y, ys, rfl⟩
    have hz : changeIdx ((s.dropna).sort).data = [] := by
      rw [sort_dropna, hyy]
      show changeAux y ys 1 = []
      rw [changeAux_eq_nil_iff]
      intro z hz2
      exact hall z (by rw [hyy]; exact List.mem_cons_of_mem y hz2) y
        (by rw [hyy]; exact List.mem_cons_self y ys)
    simp only [Series.mode]
    rw [if_neg (by omega), if_neg (by omega), hz]
  · intro h2 hex
    obtain ⟨y, ys, hyy⟩ : ∃ y ys, (s.sort).data = y :: ys := by
      cases hc : (s.sort).data with
      | nil =>
        rw [hc] at hsortlen
        simp at hsortlen
        omega
      | cons y ys => exact ⟨y, ys, rfl⟩
    have hnz : changeIdx ((s.dropna).sort).data ≠ [] := by
      rw [sort_dropna, hyy]
      show changeAux y ys 1 ≠ []
      rw [ne_eq, changeAux_eq_nil_iff]
      intro hallz
      obtain ⟨a, ha, b, hb, hab⟩ := hex
      rw [hyy] at ha hb
      have haa : a = y := by
        rcases List.mem_cons.mp ha with h | h
        · exact h
        · exact hallz a h
      have hbb : b = y := by
        rcases List.mem_cons.mp hb with h | h
        · exact h
        · exact hallz b h
      exact hab (by rw [haa, hbb])
    obtain ⟨i0, irest, hidx⟩ :
        ∃ i0 irest, changeIdx ((s.dropna).sort).data = i0 :: irest := by
      cases hc : changeIdx ((s.dropna).sort).data with
      | nil => exact absurd hc hnz
      | cons a b => exact ⟨a, b, rfl⟩
    have hmode : s.mode = some ⟨maxByLenLast
        ((((s.dropna).sort).data.take i0)
          :: ((windows2 (i0 :: irest)).map
                (fun w => ((((s.dropna).sort).data.drop w.1).take (w.2 - w.1)))
              ++ [((s.dropna).sort).data.drop ((i0 :: irest).getLastD 0)]))⟩ := by
      simp only [Series.mode]
      rw [if_neg (by omega), if_neg (by omega), hidx]
    rw [sort_dropna] at hmode hidx
    have hgroups :
        ((s.sort).data.take i0)
            :: ((windows2 (i0 :: irest)).map
                  (fun w => (((s.sort).data.drop w.1).take (w.2 - w.1)))
                ++ [(s.sort).data.drop ((i0 :: irest).getLastD 0)])
          = slicesFrom (s.sort).data 0 (i0 :: irest) := by
      simp only [slicesFrom, List.drop_zero, Nat.sub_zero]
      rw [slicesFrom_windows (s.sort).data irest i0]
    have hrule := slicesFrom_eq_runsSpec (s.sort).data (by rw [hyy]; simp)
    rw [hidx] at hrule
    have hG :
        ((s.sort).data.take i0)
            :: ((windows2 (i0 :: irest)).map
                  (fun w => (((s.sort).data.drop w.1).take (w.2 - w.1)))
                ++ [(s.sort).data.drop ((i0 :: irest).getLastD 0)])
          = runsSpec (s.sort).data := hgroups.trans hrule
    obtain ⟨pre, post, hdecomp, hmax, hpost⟩ :=
      foldl_pickLonger_decomp
        ((windows2 (i0 :: irest)).map
            (fun w => (((s.sort).data.drop w.1).take (w.2 - w.1)))
          ++ [(s.sort).data.drop ((i0 :: irest).getLastD 0)])
        ((s.sort).data.take i0)
    refine ⟨_, pre, post, ?_, ?_, ?_, hpost⟩
    · rw [← hG, hdecomp]
    · rw [hmode]
      rfl
    · intro g hg
      exact hmax g (by rw [hG]; exact hg)

/-- C6, witness for the amended theorem at `[1.0, 2.0, 2.0]`, whose sorted
valid data has runs `[1.0]` and `[2.0, 2.0]`. -/
theorem mode_spec_witness :
    ∃ r pre post,
      runsSpec (Series.sort ⟨[((1 : ℚ) : F), ((2 : ℚ) : F), ((2 : ℚ) : F)]⟩).data
          = pre ++ r :: post ∧
        Series.mode ⟨[((1 : ℚ) : F), ((2 : ℚ) : F), ((2 : ℚ) : F)]⟩ = some ⟨r⟩ ∧
        (∀ g ∈ runsSpec (Series.sort ⟨[((1 : ℚ) : F), ((2 : ℚ) : F), ((2 : ℚ) : F)]⟩).data,
          g.length ≤ r.length) ∧
        (∀ g ∈ post, g.length < r.length) :=
  (mode_spec ⟨[((1 : ℚ) : F), ((2 : ℚ) : F), ((2 : ℚ) : F)]⟩).2.2 (by decide) (by decide)
